import Mathlib

/-!
# Verification of the allocation engine (`run_allocations.py`)

A shallow embedding of the allocation computation and reconciliation engine:
week enumeration (`mondays_between`), hour distribution with the
carry-to-last-bucket rounding policy, week-index resolution, and the
idempotent allocation upsert.

Modelling conventions:
* a `datetime` is a number of minutes since 0001-01-01 00:00 (so
  `t / 1440` is the proleptic-Gregorian ordinal of its date, exactly
  Python's `date.toordinal`);
* hour values (Python floats) are modelled as exact rationals `ℚ`;
  `round(x, 2)` is round-half-to-even at two decimals (`round2`);
* the external record store is a list of allocation records in query
  order; page ids are abstracted to `ℕ`.
-/

namespace RunAllocations

/-! ## Calendar arithmetic (as in Python `datetime`) -/

/-- Leap year predicate of the proleptic Gregorian calendar. -/
def isLeap (y : ℕ) : Bool :=
  y % 4 = 0 && (y % 100 != 0 || y % 400 = 0)

/-- Days in the months of a non-leap year. -/
def daysInMonth (m : ℕ) : ℕ :=
  [31, 28, 31, 30, 31, 30, 31, 31, 30, 31, 30, 31].getD (m - 1) 0

/-- Days before the first of month `m` (1-based) in year `y`. -/
def daysBeforeMonth (y m : ℕ) : ℕ :=
  (List.range (m - 1)).foldl (fun acc i => acc + daysInMonth (i + 1)) 0
    + (if 2 < m && isLeap y then 1 else 0)

/-- Days before January 1 of year `y` (Python `_days_before_year`). -/
def daysBeforeYear (y : ℕ) : ℕ :=
  let p := y - 1
  365 * p + p / 4 - p / 100 + p / 400

/-- Proleptic Gregorian ordinal of `y-m-d`; `toordinal 1 1 1 = 1`,
exactly Python's `date.toordinal`. -/
def toordinal (y m d : ℕ) : ℕ :=
  daysBeforeYear y + daysBeforeMonth y m + d

/-- Inverse of `toordinal` (civil-from-days algorithm, shifted so that
ordinal 1 is 0001-01-01). Returns `(year, month, day)`. -/
def civilFromOrd (o : ℕ) : ℕ × ℕ × ℕ :=
  let z := o + 305
  let era := z / 146097
  let doe := z % 146097
  let yoe := (doe - doe / 1460 + doe / 36524 - doe / 146096) / 365
  let y := yoe + era * 400
  let doy := doe - (365 * yoe + yoe / 4 - yoe / 100)
  let mp := (5 * doy + 2) / 153
  let d := doy - (153 * mp + 2) / 5 + 1
  let m := if mp < 10 then mp + 3 else mp - 9
  (if m ≤ 2 then y + 1 else y, m, d)

/-- Left-pad the decimal representation of `n` with zeros to width `w`. -/
def padNum (w n : ℕ) : String :=
  let s := toString n
  String.mk (List.replicate (w - s.length) '0') ++ s

/-- `date.isoformat()` of the date with ordinal `o`: `"YYYY-MM-DD"`. -/
def isoDateStr (o : ℕ) : String :=
  let c := civilFromOrd o
  padNum 4 c.1 ++ "-" ++ padNum 2 c.2.1 ++ "-" ++ padNum 2 c.2.2

/-- Monday of ISO week 1 of year `y` (CPython `_isoweek1monday`). -/
def isoweek1monday (y : ℕ) : ℕ :=
  let firstday := toordinal y 1 1
  let firstweekday := (firstday + 6) % 7
  let week1monday := firstday - firstweekday
  if 3 < firstweekday then week1monday + 7 else week1monday

/-- ISO year and ISO week number of the date with ordinal `o`
(CPython `date.isocalendar`, also `strftime` `%G` / `%V`). -/
def isoYearWeek (o : ℕ) : ℕ × ℕ :=
  let y := (civilFromOrd o).1
  let w1 := isoweek1monday y
  if o < w1 then
    (y - 1, (o - isoweek1monday (y - 1)) / 7 + 1)
  else
    let wk := (o - w1) / 7
    if 52 ≤ wk && isoweek1monday (y + 1) ≤ o then (y + 1, 1) else (y, wk + 1)

/-! ## Datetimes as minutes -/

/-- One day in minutes. -/
def dayMin : ℕ := 1440

/-- One week in minutes. -/
def weekMin : ℕ := 10080

/-- Ordinal of the date of datetime `t` (minutes since 0001-01-01 00:00). -/
def dayOf (t : ℕ) : ℕ := t / dayMin

/-- `datetime.weekday()`: Monday = 0. Ordinal 1 is a Monday. -/
def weekday (t : ℕ) : ℕ := (dayOf t + 6) % 7

/-- `iso_week_label`: `dt.strftime("%G-[W]%V")`. -/
def iso_week_label (t : ℕ) : String :=
  let p := isoYearWeek (dayOf t)
  padNum 4 p.1 ++ "-[W]" ++ padNum 2 p.2

/-! ## `mondays_between` -/

/-- Snap to the Monday on/after `s`, keeping the time of day:
`if s.weekday() != 0: s = s + timedelta(days=(7 - s.weekday()))`. -/
def snapMonday (s : ℕ) : ℕ :=
  if weekday s ≠ 0 then s + (7 - weekday s) * dayMin else s

/-- The weekly `rrule` iteration: occurrences `cur, cur+7d, ...` while
`≤ e`. The `fuel` argument only bounds the number of loop iterations
(the loop itself stops at `e`); `mondays_between` supplies enough. -/
def rruleWeekly (fuel : ℕ) (cur e : ℕ) : List ℕ :=
  match fuel with
  | 0 => []
  | fuel + 1 => if cur ≤ e then cur :: rruleWeekly fuel (cur + weekMin) e else []

/-- `mondays_between(start_dt, end_dt)`: snap to Monday on/after start,
then every weekly occurrence up to `end_dt` inclusive. -/
def mondays_between (s e : ℕ) : List ℕ :=
  let fm := snapMonday s
  rruleWeekly ((e + 1 - fm) / weekMin + 1) fm e

/-! ## Week-sequence lemmas (claim C2) -/

/-- The week sequence as the claim words it: every Monday from the first
Monday on/after `start`, up to and including the first Monday `≥ due`. -/
def specMondaysClaim (s e : ℕ) : List ℕ :=
  let fm := snapMonday s
  let K := if e ≤ fm then 0 else (e - fm + (weekMin - 1)) / weekMin
  (List.range (K + 1)).map (fun k => fm + weekMin * k)

/-- The week sequence with the amended endpoint: every Monday occurrence
from the first Monday on/after `start`, up to and including the last one
`≤ due` (empty when `due` precedes that first Monday). -/
def specMondaysAmended (s e : ℕ) : List ℕ :=
  let fm := snapMonday s
  if fm ≤ e then (List.range ((e - fm) / weekMin + 1)).map (fun k => fm + weekMin * k)
  else []

lemma rruleWeekly_of_gt (fuel cur e : ℕ) (h : e < cur) :
    rruleWeekly fuel cur e = [] := by
  cases fuel with
  | zero => rfl
  | succ fuel => simp [rruleWeekly, Nat.not_le_of_lt h]

lemma map_add_week (c n : ℕ) :
    (List.range (n + 1)).map (fun k => c + weekMin * k)
      = c :: (List.range n).map (fun k => (c + weekMin) + weekMin * k) := by
  rw [List.range_succ_eq_map, List.map_cons, List.map_map]
  refine List.cons_eq_cons.mpr ⟨by simp, ?_⟩
  apply List.map_congr_left
  intro k _
  simp only [Function.comp_apply, Nat.succ_eq_add_one]
  ring

lemma rruleWeekly_closed :
    ∀ (fuel cur e : ℕ), e - cur < 10080 * fuel → cur ≤ e →
      rruleWeekly fuel cur e
        = (List.range ((e - cur) / weekMin + 1)).map (fun k => cur + weekMin * k) := by
  intro fuel
  induction fuel with
  | zero => intro cur e hf hle; omega
  | succ fuel ih =>
    intro cur e hf hle
    have hw : weekMin = 10080 := rfl
    rw [rruleWeekly, if_pos hle]
    by_cases hnext : cur + weekMin ≤ e
    · have hsub : e - cur - weekMin = e - (cur + weekMin) := by omega
      have hdiv : (e - cur) / weekMin = (e - (cur + weekMin)) / weekMin + 1 := by
        rw [Nat.div_eq_sub_div (by norm_num [weekMin]) (by omega), hsub]
      rw [hdiv, map_add_week, ih (cur + weekMin) e (by omega) hnext]
    · rw [rruleWeekly_of_gt fuel (cur + weekMin) e (by omega)]
      have hz : (e - cur) / weekMin = 0 := Nat.div_eq_of_lt (by omega)
      simp [hz, List.range_succ]

lemma mondays_between_eq_amended (s e : ℕ) :
    mondays_between s e = specMondaysAmended s e := by
  unfold mondays_between specMondaysAmended
  set fm := snapMonday s with hfm
  by_cases hle : fm ≤ e
  · rw [if_pos hle]
    apply rruleWeekly_closed
    · show e - fm < 10080 * ((e + 1 - fm) / 10080 + 1)
      omega
    · exact hle
  · rw [if_neg hle, rruleWeekly_of_gt _ _ _ (by omega)]

/-! ## Rounding: Python `round(x, 2)` on exact values -/

/-- Round-half-to-even to an integer. -/
def rhe (q : ℚ) : ℤ :=
  let f := ⌊q⌋
  let r := q - f
  if r < 1 / 2 then f
  else if 1 / 2 < r then f + 1
  else if f % 2 = 0 then f else f + 1

/-- Python `round(x, 2)`: round-half-to-even at two decimal places. -/
def round2 (q : ℚ) : ℚ := (rhe (q * 100) : ℚ) / 100

/-! ## Hour distribution (`run`, lines 138-154) -/

/-- The loop body's hour assignment:
`hrs = carry if i == n - 1 and est > 0 else per_week`,
iterated over `enumerate(weeks)` starting at index `j`. -/
def assignHours (n : ℕ) (perWeek carry : ℚ) (hasEst : Bool) :
    ℕ → List ℕ → List (ℕ × ℚ)
  | _, [] => []
  | j, w :: ws =>
    (w, if j = n - 1 && hasEst then carry else perWeek)
      :: assignHours n perWeek carry hasEst (j + 1) ws

/-- The week list used by `run`:
`weeks = list(mondays_between(s, e))`, with the single-bucket fallback
`if not weeks: weeks = [s]`. -/
def weeksOf (s e : ℕ) : List ℕ :=
  let ws := mondays_between s e
  if ws = [] then [s] else ws

/-- The distribution computed by `run` for one task:
`n = max(1, len(weeks))`,
`per_week = est / n if est > 0 else 0.0`,
`carry = est - round(per_week, 2) * (n - 1)`, and per-bucket hours as in
the loop. Returns the ordered list of `(week_start, hours)` buckets. -/
def buckets (s e : ℕ) (est : ℚ) : List (ℕ × ℚ) :=
  let weeks := weeksOf s e
  let n := max 1 weeks.length
  let perWeek := if 0 < est then est / (n : ℚ) else 0
  let carry := est - round2 perWeek * ((n : ℚ) - 1)
  assignHours n perWeek carry (decide (0 < est)) 0 weeks

/-! ## Basic lemmas about rounding and the distribution -/

lemma rhe_intCast (z : ℤ) : rhe (z : ℚ) = z := by
  unfold rhe
  simp [Int.floor_intCast]

lemma round2_eq_self {q : ℚ} {z : ℤ} (h : q * 100 = (z : ℚ)) : round2 q = q := by
  unfold round2
  rw [h, rhe_intCast]
  field_simp at h ⊢
  linarith

lemma round2_mul_100_int (q : ℚ) : round2 q * 100 = ((rhe (q * 100) : ℤ) : ℚ) := by
  unfold round2
  field_simp

lemma rhe_eq_of_near {q : ℚ} {z : ℤ} (h1 : (z : ℚ) ≤ q) (h2 : q < (z : ℚ) + 1 / 2) :
    rhe q = z := by
  have hf : ⌊q⌋ = z := Int.floor_eq_iff.mpr ⟨h1, by linarith⟩
  unfold rhe
  rw [hf, if_pos (by linarith)]

lemma round2_eq_of_near {q : ℚ} {z : ℤ} (h1 : (z : ℚ) ≤ q * 100)
    (h2 : q * 100 < (z : ℚ) + 1 / 2) : round2 q = (z : ℚ) / 100 := by
  unfold round2
  rw [rhe_eq_of_near h1 h2]

lemma weeksOf_ne_nil (s e : ℕ) : weeksOf s e ≠ [] := by
  unfold weeksOf
  by_cases h : mondays_between s e = [] <;> simp [h]

lemma assignHours_cons (n : ℕ) (pw c : ℚ) (he : Bool) (j w : ℕ) (ws : List ℕ) :
    assignHours n pw c he j (w :: ws)
      = (w, if j = n - 1 && he then c else pw) :: assignHours n pw c he (j + 1) ws :=
  rfl

lemma assignHours_length (n : ℕ) (pw c : ℚ) (he : Bool) :
    ∀ (j : ℕ) (ws : List ℕ), (assignHours n pw c he j ws).length = ws.length := by
  intro j ws
  induction ws generalizing j with
  | nil => rfl
  | cons w tail ih => simp [assignHours, ih]

lemma assignHours_getD (n : ℕ) (pw c : ℚ) (he : Bool) :
    ∀ (ws : List ℕ) (j i : ℕ), i < ws.length →
      (assignHours n pw c he j ws).getD i (0, 0)
        = (ws.getD i 0, if j + i = n - 1 && he then c else pw) := by
  intro ws
  induction ws with
  | nil => intro j i h; simp at h
  | cons w tail ih =>
    intro j i h
    cases i with
    | zero => simp [assignHours]
    | succ i =>
      simp only [assignHours, List.getD_cons_succ]
      rw [ih (j + 1) i (by simpa using h)]
      have : j + 1 + i = j + (i + 1) := by omega
      rw [this]

lemma assignHours_map_sum (n : ℕ) (pw c : ℚ) (f : ℚ → ℚ) :
    ∀ (ws : List ℕ) (j : ℕ), j + ws.length = n → ws ≠ [] →
      ((assignHours n pw c true j ws).map (fun p => f p.2)).sum
        = ((ws.length - 1 : ℕ) : ℚ) * f pw + f c := by
  intro ws
  induction ws with
  | nil => intro j _ hne; cases hne rfl
  | cons w tail ih =>
    intro j hlen hne
    cases tail with
    | nil =>
      have hj : j = n - 1 := by simp at hlen; omega
      simp [assignHours, hj]
    | cons w2 t2 =>
      have hj : ¬ (j = n - 1) := by simp at hlen; omega
      have hlen2 : (j + 1) + (w2 :: t2).length = n := by simp at hlen ⊢; omega
      have hcond : ¬ ((decide (j = n - 1) && true) = true) := by simp [hj]
      rw [assignHours_cons, List.map_cons, List.sum_cons, if_neg hcond,
        ih (j + 1) hlen2 (by simp)]
      have e1 : ((w2 :: t2).length - 1) = t2.length := by simp
      have e2 : ((w :: w2 :: t2).length - 1) = t2.length + 1 := by simp
      rw [e1, e2]
      push_cast
      ring

lemma length_weeksOf_pos (s e : ℕ) : 0 < (weeksOf s e).length :=
  List.length_pos.mpr (weeksOf_ne_nil s e)

lemma buckets_pos (s e : ℕ) (est : ℚ) (hpos : 0 < est) :
    buckets s e est
      = assignHours (weeksOf s e).length (est / ((weeksOf s e).length : ℚ))
          (est - round2 (est / ((weeksOf s e).length : ℚ)) * (((weeksOf s e).length : ℚ) - 1))
          true 0 (weeksOf s e) := by
  unfold buckets
  have hmax : max 1 (weeksOf s e).length = (weeksOf s e).length :=
    Nat.max_eq_right (length_weeksOf_pos s e)
  simp only [hmax, if_pos hpos, decide_eq_true hpos]

lemma assignHours_false_snd (n : ℕ) (pw c : ℚ) :
    ∀ (ws : List ℕ) (j : ℕ) (p : ℕ × ℚ), p ∈ assignHours n pw c false j ws → p.2 = pw := by
  intro ws
  induction ws with
  | nil => intro j p hp; simp [assignHours] at hp
  | cons w tail ih =>
    intro j p hp
    rw [assignHours_cons] at hp
    rcases List.mem_cons.mp hp with h | h
    · rw [h]
      simp
    · exact ih (j + 1) p h

/-! ## Claim C2 -/

/-- Claim C2 (counterexample): for start = Monday 2026-01-05 00:00 and
due = Tuesday 2026-01-06 00:00 (due on/after the first Monday on-or-after
start), the computed sequence is not "every Monday up to and including
the first Monday ≥ due": the code stops at the last Monday ≤ due. -/
theorem C2_counterexample :
    snapMonday (dayMin * toordinal 2026 1 5) ≤ dayMin * toordinal 2026 1 6 ∧
    mondays_between (dayMin * toordinal 2026 1 5) (dayMin * toordinal 2026 1 6) ≠
      specMondaysClaim (dayMin * toordinal 2026 1 5) (dayMin * toordinal 2026 1 6) := by
  constructor
  · decide
  · decide

/-- Claim C2 (amended): for due on/after the first Monday on-or-after
start, the bucket sequence consists of every Monday occurrence (at
start's time of day) from the first Monday on/after start, at weekly
cadence, ascending, up to and including the last one `≤ due`. -/
theorem C2_weeks_amended (s e : ℕ) (h : snapMonday s ≤ e) :
    mondays_between s e = specMondaysAmended s e :=
  mondays_between_eq_amended s e

/-- Witness for `C2_weeks_amended` at start = Monday 2026-01-05,
due = Monday 2026-01-19. -/
theorem C2_weeks_amended_witness :
    snapMonday (dayMin * toordinal 2026 1 5) ≤ dayMin * toordinal 2026 1 19 ∧
    mondays_between (dayMin * toordinal 2026 1 5) (dayMin * toordinal 2026 1 19)
      = specMondaysAmended (dayMin * toordinal 2026 1 5) (dayMin * toordinal 2026 1 19) :=
  ⟨by decide, C2_weeks_amended _ _ (by decide)⟩

/-! ## Claim C1 -/

/-- Claim C1 (counterexample): for estimated hours `H = 0.001` spread
over `n = 2` buckets (start = Monday 2026-01-05, due one week later),
neither the emitted bucket hours (`0.0005`, `0.001`) nor the persisted
2-decimal roundings (`0.0`, `0.0`) sum to `H` within `1e-9`: the claimed
exact sum preservation fails. -/
theorem C1_sum_counterexample :
    0 < (1 / 1000 : ℚ) ∧
    (buckets (dayMin * toordinal 2026 1 5) (dayMin * toordinal 2026 1 5 + weekMin)
        (1 / 1000)).length = 2 ∧
    ((buckets (dayMin * toordinal 2026 1 5) (dayMin * toordinal 2026 1 5 + weekMin)
        (1 / 1000)).map Prod.snd).sum - 1 / 1000 > 1 / 1000000000 ∧
    1 / 1000 - ((buckets (dayMin * toordinal 2026 1 5) (dayMin * toordinal 2026 1 5 + weekMin)
        (1 / 1000)).map (fun p => round2 p.2)).sum > 1 / 1000000000 := by
  have hw : weeksOf (dayMin * toordinal 2026 1 5) (dayMin * toordinal 2026 1 5 + weekMin)
      = [dayMin * toordinal 2026 1 5, dayMin * toordinal 2026 1 5 + weekMin] := by
    unfold weeksOf
    rw [show mondays_between (dayMin * toordinal 2026 1 5) (dayMin * toordinal 2026 1 5 + weekMin)
      = [dayMin * toordinal 2026 1 5, dayMin * toordinal 2026 1 5 + weekMin] from by decide]
    simp
  have hr1 : round2 ((1 / 1000 : ℚ) / ((2 : ℕ) : ℚ)) = 0 := by
    rw [round2_eq_of_near (z := 0) (by norm_num) (by norm_num)]
    norm_num
  have hr2 : round2 (1 / 1000 : ℚ) = 0 := by
    rw [round2_eq_of_near (z := 0) (by norm_num) (by norm_num)]
    norm_num
  have hb : buckets (dayMin * toordinal 2026 1 5) (dayMin * toordinal 2026 1 5 + weekMin)
      (1 / 1000)
      = [(dayMin * toordinal 2026 1 5, 1 / 2000),
         (dayMin * toordinal 2026 1 5 + weekMin, 1 / 1000)] := by
    rw [buckets_pos _ _ _ (by norm_num), hw]
    simp only [List.length_cons, List.length_nil, assignHours, hr1]
    norm_num
  have hr0 : round2 (1 / 2000 : ℚ) = 0 := by
    rw [round2_eq_of_near (z := 0) (by norm_num) (by norm_num)]
    norm_num
  rw [hb]
  refine ⟨by norm_num, by norm_num, by norm_num, ?_⟩
  simp only [List.map_cons, List.map_nil, List.sum_cons, List.sum_nil, hr2, hr0]
  norm_num

/-- Claim C1 (amended): for `H > 0` over `n` buckets, every bucket but
the last emits `per_week = H / n` (persisted as `round(per_week, 2)`),
the last emits exactly `H - round(per_week, 2) * (n - 1)`, and — provided
`H` is an exact multiple of `0.01` — the persisted (2-decimal-rounded)
bucket hours sum to `H` exactly. -/
theorem C1_distribution_amended (s e : ℕ) (est : ℚ) (hpos : 0 < est) :
    (∀ i, i + 1 < (buckets s e est).length →
        ((buckets s e est).getD i (0, 0)).2 = est / ((buckets s e est).length : ℚ)) ∧
    ((buckets s e est).getD ((buckets s e est).length - 1) (0, 0)).2
      = est - round2 (est / ((buckets s e est).length : ℚ))
          * (((buckets s e est).length : ℚ) - 1) ∧
    (∀ z : ℤ, est * 100 = (z : ℚ) →
      ((buckets s e est).map (fun p => round2 p.2)).sum = est) := by
  have hW := weeksOf_ne_nil s e
  have hL : 0 < (weeksOf s e).length := length_weeksOf_pos s e
  rw [buckets_pos s e est hpos]
  simp only [assignHours_length]
  set L := (weeksOf s e).length with hLdef
  set pw := est / (L : ℚ) with hpw
  set c := est - round2 pw * ((L : ℚ) - 1) with hc
  refine ⟨?_, ?_, ?_⟩
  · intro i hi
    rw [assignHours_getD _ _ _ _ _ 0 i (by omega)]
    have hne : ¬ ((decide ((0 + i : ℕ) = L - 1) && true) = true) := by
      simp
      omega
    rw [if_neg hne]
  · rw [assignHours_getD _ _ _ _ _ 0 (L - 1) (by omega)]
    have heq : ((decide ((0 + (L - 1) : ℕ) = L - 1) && true) = true) := by
      simp
    rw [if_pos heq]
  · intro z hz
    rw [assignHours_map_sum _ _ _ _ _ 0 (by omega) hW]
    have hrc : round2 c = c := by
      apply round2_eq_self (z := z - rhe (pw * 100) * ((L : ℤ) - 1))
      rw [hc]
      have h100 := round2_mul_100_int pw
      push_cast
      nlinarith [h100]
    rw [hrc, hc]
    have hcast : ((L - 1 : ℕ) : ℚ) = (L : ℚ) - 1 := by
      push_cast [Nat.cast_sub hL]
      ring
    rw [hcast]
    ring

/-- Witness for `C1_distribution_amended`: `H = 10` over the three-week
span Monday 2026-01-05 .. Monday 2026-01-19 (`10 * 100` is the integer
`1000`), so the persisted hours sum to exactly `10`. -/
theorem C1_distribution_amended_witness :
    0 < (10 : ℚ) ∧
    ((buckets (dayMin * toordinal 2026 1 5) (dayMin * toordinal 2026 1 19) 10).map
      (fun p => round2 p.2)).sum = 10 :=
  ⟨by norm_num,
    (C1_distribution_amended (dayMin * toordinal 2026 1 5) (dayMin * toordinal 2026 1 19) 10
      (by norm_num)).2.2 1000 (by norm_num)⟩

/-! ## Claim C5 -/

/-- Claim C5: for start = Monday 2026-01-05, due = 2026-01-19, estimated
hours 10, the distribution emits buckets dated 2026-01-05, 2026-01-12,
2026-01-19 whose persisted (2-decimal) hours are 3.33, 3.33, 3.34, with
ISO labels `2026-[W]02`, `2026-[W]03`, `2026-[W]04`, and the persisted
hours sum to exactly 10. -/
theorem C5_concrete_scenario :
    ((buckets (dayMin * toordinal 2026 1 5) (dayMin * toordinal 2026 1 19) 10).map
        (fun p => (p.1, round2 p.2)))
      = [(dayMin * toordinal 2026 1 5, 333 / 100),
         (dayMin * toordinal 2026 1 12, 333 / 100),
         (dayMin * toordinal 2026 1 19, 167 / 50)] ∧
    ((buckets (dayMin * toordinal 2026 1 5) (dayMin * toordinal 2026 1 19) 10).map
        (fun p => iso_week_label p.1))
      = ["2026-[W]02", "2026-[W]03", "2026-[W]04"] ∧
    ((buckets (dayMin * toordinal 2026 1 5) (dayMin * toordinal 2026 1 19) 10).map
        (fun p => round2 p.2)).sum = 10 := by
  have hw : weeksOf (dayMin * toordinal 2026 1 5) (dayMin * toordinal 2026 1 19)
      = [dayMin * toordinal 2026 1 5, dayMin * toordinal 2026 1 12,
         dayMin * toordinal 2026 1 19] := by
    unfold weeksOf
    rw [show mondays_between (dayMin * toordinal 2026 1 5) (dayMin * toordinal 2026 1 19)
      = [dayMin * toordinal 2026 1 5, dayMin * toordinal 2026 1 12,
         dayMin * toordinal 2026 1 19] from by decide]
    simp
  have hr3 : round2 ((10 : ℚ) / 3) = 333 / 100 := by
    rw [round2_eq_of_near (z := 333) (by norm_num) (by norm_num)]
    norm_num
  have hrc : round2 (167 / 50 : ℚ) = 167 / 50 :=
    round2_eq_self (z := 334) (by norm_num)
  have hb : buckets (dayMin * toordinal 2026 1 5) (dayMin * toordinal 2026 1 19) 10
      = [(dayMin * toordinal 2026 1 5, 10 / 3),
         (dayMin * toordinal 2026 1 12, 10 / 3),
         (dayMin * toordinal 2026 1 19, 167 / 50)] := by
    rw [buckets_pos _ _ _ (by norm_num), hw]
    norm_num [assignHours, hr3]
  rw [hb]
  refine ⟨?_, by decide, ?_⟩
  · simp only [List.map_cons, List.map_nil, hr3, hrc]
  · simp only [List.map_cons, List.map_nil, List.sum_cons, List.sum_nil, hr3, hrc]
    norm_num

/-! ## Claim C7 -/

/-- Claim C7: when the span produces zero Mondays, the distribution
falls back to the single bucket `[(start, est)]`: the raw start datetime
itself carrying the full (nonnegative) estimate. -/
theorem C7_single_bucket_fallback (s e : ℕ) (est : ℚ) (h0 : 0 ≤ est)
    (hempty : mondays_between s e = []) :
    buckets s e est = [(s, est)] := by
  have hweeks : weeksOf s e = [s] := by
    unfold weeksOf
    simp [hempty]
  rcases lt_or_eq_of_le h0 with hpos | hzero
  · rw [buckets_pos s e est hpos, hweeks]
    simp [assignHours]
  · unfold buckets
    rw [hweeks, ← hzero]
    simp [assignHours]

/-- Witness for `C7_single_bucket_fallback`: start = due =
Tuesday 2026-01-06, estimate 5; the first Monday on/after start falls
after due, so the span has zero Mondays and one bucket carries all 5
hours. -/
theorem C7_single_bucket_fallback_witness :
    0 ≤ (5 : ℚ) ∧
    mondays_between (dayMin * toordinal 2026 1 6) (dayMin * toordinal 2026 1 6) = [] ∧
    buckets (dayMin * toordinal 2026 1 6) (dayMin * toordinal 2026 1 6) 5
      = [(dayMin * toordinal 2026 1 6, 5)] :=
  ⟨by norm_num, by decide,
    C7_single_bucket_fallback _ _ 5 (by norm_num) (by decide)⟩

/-! ## The allocation store and `upsert_allocation` -/

/-- An allocation record: display name, task relation, week relation,
planned-hours number (optional, as Notion numbers are). Ids are
abstracted away; the store is the list of records in query order. -/
structure Alloc where
  name : String
  task : List ℕ
  week : List ℕ
  hours : Option ℚ
deriving DecidableEq

instance : Inhabited Alloc := ⟨⟨"", [], [], none⟩⟩

/-- The query filter of `upsert_allocation`: task relation contains
`tid` and week relation contains `wid`. -/
def matchB (tid wid : ℕ) (a : Alloc) : Bool :=
  a.task.contains tid && a.week.contains wid

/-- `pages.update` on an allocation: overwrite the planned-hours field. -/
def setH (a : Alloc) (v : ℚ) : Alloc := { a with hours := some v }

/-- Index of the first element satisfying `p` (the first query result). -/
def findFirst (p : Alloc → Bool) : List Alloc → Option ℕ
  | [] => none
  | a :: l => if p a then some 0 else (findFirst p l).map (· + 1)

/-- The record `pages.create` builds: name `"{task_name} · {week_label}"`,
singleton relations, planned hours `round(hours, 2)`. -/
def mkAlloc (tid : ℕ) (tname : String) (wid : ℕ) (wlabel : String) (h : ℚ) : Alloc :=
  ⟨tname ++ " · " ++ wlabel, [tid], [wid], some (round2 h)⟩

/-- `upsert_allocation(task_id, task_name, week_id, week_label, hours)`:
query for an existing Task×Week record; update the first hit's planned
hours, else create. Returns the new store and `"updated"`/`"created"`. -/
def upsert_allocation (tid : ℕ) (tname : String) (wid : ℕ) (wlabel : String) (h : ℚ)
    (s : List Alloc) : List Alloc × String :=
  match findFirst (matchB tid wid) s with
  | some i => (s.set i (setH (s.getD i default) (round2 h)), "updated")
  | none => (s ++ [mkAlloc tid tname wid wlabel h], "created")

/-- The name/relations part of a record: everything an update leaves
untouched, and everything record matching depends on. -/
def skel (a : Alloc) : String × List ℕ × List ℕ := (a.name, a.task, a.week)

/-! ## Week-index resolution (`run`, lines 147-153) -/

/-- The `P_WEEK_START` property-name constant. -/
def P_WEEK_START : String := "Week Start"

/-- Python `key in dict`. -/
def hasKey (idx : List (String × ℕ)) (key : String) : Bool :=
  idx.any (fun p => p.1 == key)

/-- The week-id resolution in `run`'s bucket loop:
`week_id = idx_by_title.get(label)`, then
`if not week_id and P_WEEK_START in idx_by_date: week_id = idx_by_date.get(w.date().isoformat())`.
Note the guard tests the property name `"Week Start"` as a key of the
date-keyed index. -/
def resolveWeek (lIdx dIdx : List (String × ℕ)) (label dateStr : String) : Option ℕ :=
  match List.lookup label lIdx with
  | some wid => some wid
  | none => if hasKey dIdx P_WEEK_START then List.lookup dateStr dIdx else none

/-- The per-task bucket loop of `run`: for each `(week_start, hours)`
bucket, resolve the week id (skipping on `None`), call
`upsert_allocation`, and accumulate the created/updated counters. -/
def processBuckets (lIdx dIdx : List (String × ℕ)) (tid : ℕ) (tname : String) :
    List (ℕ × ℚ) → List Alloc → List Alloc × ℕ × ℕ
  | [], store => (store, 0, 0)
  | (w, h) :: rest, store =>
    match resolveWeek lIdx dIdx (iso_week_label w) (isoDateStr (dayOf w)) with
    | none => processBuckets lIdx dIdx tid tname rest store
    | some wid =>
      let r := upsert_allocation tid tname wid (iso_week_label w) h store
      let next := processBuckets lIdx dIdx tid tname rest r.1
      (next.1, (if r.2 = "created" then 1 else 0) + next.2.1,
        (if r.2 = "updated" then 1 else 0) + next.2.2)

/-! ## Store lemmas -/

lemma findFirst_eq_none_iff (p : Alloc → Bool) :
    ∀ l : List Alloc, findFirst p l = none ↔ l.any p = false := by
  intro l
  induction l with
  | nil => simp [findFirst]
  | cons a l ih =>
    by_cases hp : p a
    · simp [findFirst, hp]
    · simp [findFirst, hp, ih]

lemma findFirst_isSome_of_any {p : Alloc → Bool} {l : List Alloc}
    (h : l.any p = true) : ∃ i, findFirst p l = some i := by
  cases hf : findFirst p l with
  | none => rw [(findFirst_eq_none_iff p l).mp hf] at h; cases h
  | some i => exact ⟨i, rfl⟩

lemma findFirst_some_lt {p : Alloc → Bool} :
    ∀ {l : List Alloc} {i : ℕ}, findFirst p l = some i → i < l.length := by
  intro l
  induction l with
  | nil => intro i h; simp [findFirst] at h
  | cons a l ih =>
    intro i h
    by_cases hp : p a
    · simp only [findFirst, if_pos hp, Option.some.injEq] at h
      subst h
      simp
    · simp only [findFirst, if_neg hp, Option.map_eq_some'] at h
      obtain ⟨j, hj, rfl⟩ := h
      have := ih hj
      simp only [List.length_cons]
      omega

lemma getD_set_self {s : List Alloc} {i : ℕ} (hi : i < s.length) (a d : Alloc) :
    (s.set i a).getD i d = a := by
  induction s generalizing i with
  | nil => simp at hi
  | cons b l ih =>
    cases i with
    | zero => rfl
    | succ i => simpa using ih (by simpa using hi)

lemma getD_set_ne {s : List Alloc} {i j : ℕ} (hij : j ≠ i) (a d : Alloc) :
    (s.set i a).getD j d = s.getD j d := by
  induction s generalizing i j with
  | nil => simp
  | cons b l ih =>
    cases i with
    | zero =>
      cases j with
      | zero => cases hij rfl
      | succ j => simp
    | succ i =>
      cases j with
      | zero => rfl
      | succ j =>
        have hji : j ≠ i := fun hh => hij (by rw [hh])
        simpa using ih hji

lemma getD_append_left {s : List Alloc} (t : List Alloc) {k : ℕ} (h : k < s.length) :
    ((s ++ t).getD k default) = s.getD k default := by
  induction s generalizing k with
  | nil => simp at h
  | cons a s ih =>
    cases k with
    | zero => rfl
    | succ k => simpa using ih (by simpa using h)

lemma getD_append_self (s : List Alloc) (a : Alloc) :
    ((s ++ [a]).getD s.length default) = a := by
  induction s with
  | nil => rfl
  | cons b s ih => simpa using ih

lemma matchB_eq_of_skel {a b : Alloc} (h : skel a = skel b) (tid wid : ℕ) :
    matchB tid wid a = matchB tid wid b := by
  unfold skel at h
  obtain ⟨-, h2, h3⟩ := Prod.mk.injEq .. ▸ Prod.ext_iff.mp h
  simp only [Prod.ext_iff] at *
  unfold matchB
  rw [h2, h3]

lemma skel_setH (a : Alloc) (v : ℚ) : skel (setH a v) = skel a := rfl

lemma map_skel_set (s : List Alloc) (i : ℕ) (v : ℚ) :
    ((s.set i (setH (s.getD i default) v)).map skel) = s.map skel := by
  induction s generalizing i with
  | nil => simp
  | cons a l ih =>
    cases i with
    | zero => simp [skel_setH, List.getD_cons_zero]
    | succ i =>
      simp only [List.set_cons_succ, List.map_cons, List.getD_cons_succ]
      rw [ih]

lemma countP_eq_of_map_skel {s t : List Alloc} (h : s.map skel = t.map skel)
    (tid wid : ℕ) : s.countP (matchB tid wid) = t.countP (matchB tid wid) := by
  induction s generalizing t with
  | nil => cases t <;> simp_all
  | cons a s ih =>
    cases t with
    | nil => simp at h
    | cons b t =>
      simp only [List.map_cons, List.cons.injEq] at h
      rw [List.countP_cons, List.countP_cons, ih h.2,
        matchB_eq_of_skel h.1 tid wid]

/-! ## Claim C3 -/

/-- Claim C3 (code bug): a bucket for Monday 2026-01-05 whose label
misses the label index is skipped (no write, zero counters) even though
the date index maps its ISO date `"2026-01-05"` to a week id: the
fallback guard tests the literal property name `"Week Start"` against
the date-keyed index, so the date lookup is dead code. -/
theorem C3_date_fallback_dead :
    isoDateStr (dayOf (dayMin * toordinal 2026 1 5)) = "2026-01-05" ∧
    List.lookup (isoDateStr (dayOf (dayMin * toordinal 2026 1 5)))
      [("2026-01-05", 42)] = some 42 ∧
    resolveWeek [] [("2026-01-05", 42)] (iso_week_label (dayMin * toordinal 2026 1 5))
      (isoDateStr (dayOf (dayMin * toordinal 2026 1 5))) = none ∧
    processBuckets [] [("2026-01-05", 42)] 1 "Task"
      [(dayMin * toordinal 2026 1 5, 2)] [] = ([], 0, 0) := by
  refine ⟨?_, ?_, ?_, ?_⟩ <;> decide

/-! ## Claim C6 -/

/-- Claim C6: every `upsert_allocation` call performs exactly one write.
When a matching record exists, it returns `"updated"` and the store is
the old one with one record's planned hours overwritten by
`round(hours, 2)`; otherwise it returns `"created"` and the store is the
old one plus exactly one new record with the specified name, relations,
and rounded hours. -/
theorem C6_upsert_single_write (tid wid : ℕ) (tname wlabel : String) (h : ℚ)
    (s : List Alloc) :
    if s.any (matchB tid wid) then
      (upsert_allocation tid tname wid wlabel h s).2 = "updated" ∧
      (upsert_allocation tid tname wid wlabel h s).1.length = s.length ∧
      ∃ i, findFirst (matchB tid wid) s = some i ∧
        (upsert_allocation tid tname wid wlabel h s).1
          = s.set i (setH (s.getD i default) (round2 h))
    else
      (upsert_allocation tid tname wid wlabel h s).2 = "created" ∧
      (upsert_allocation tid tname wid wlabel h s).1
        = s ++ [⟨tname ++ " · " ++ wlabel, [tid], [wid], some (round2 h)⟩] := by
  by_cases hm : s.any (matchB tid wid)
  · rw [if_pos hm]
    obtain ⟨i, hi⟩ := findFirst_isSome_of_any hm
    unfold upsert_allocation
    rw [hi]
    exact ⟨rfl, by simp, i, rfl, rfl⟩
  · rw [if_neg hm]
    unfold upsert_allocation
    rw [(findFirst_eq_none_iff _ s).mpr (by simpa using hm)]
    exact ⟨rfl, rfl⟩

/-! ## Claim C9 -/

/-- Claim C9: when `upsert_allocation` takes the update path, only the
planned-hours field of the first matching record is written (to
`round(hours, 2)`); every record's name and relations — and every other
record entirely — are unchanged. -/
theorem C9_update_frame (tid wid : ℕ) (tname wlabel : String) (h : ℚ)
    (s : List Alloc) (hm : s.any (matchB tid wid) = true) :
    (upsert_allocation tid tname wid wlabel h s).2 = "updated" ∧
    (upsert_allocation tid tname wid wlabel h s).1.map skel = s.map skel ∧
    ∃ i, findFirst (matchB tid wid) s = some i ∧
      ((upsert_allocation tid tname wid wlabel h s).1.getD i default).hours
        = some (round2 h) ∧
      ∀ j, j ≠ i →
        (upsert_allocation tid tname wid wlabel h s).1.getD j default
          = s.getD j default := by
  obtain ⟨i, hi⟩ := findFirst_isSome_of_any hm
  have hlt : i < s.length := findFirst_some_lt hi
  unfold upsert_allocation
  rw [hi]
  refine ⟨rfl, map_skel_set s i (round2 h), i, rfl, ?_, ?_⟩
  · rw [getD_set_self hlt]
    rfl
  · intro j hj
    exact getD_set_ne hj _ _

/-- Witness for `C9_update_frame`: a store holding one record matching
task 1 × week 2. -/
theorem C9_update_frame_witness :
    ([⟨"A · L", [1], [2], some 5⟩] : List Alloc).any (matchB 1 2) = true ∧
    (upsert_allocation 1 "A" 2 "L" 7 [⟨"A · L", [1], [2], some 5⟩]).2 = "updated" :=
  ⟨by decide, (C9_update_frame 1 2 "A" "L" 7 [⟨"A · L", [1], [2], some 5⟩] (by decide)).1⟩

/-! ## Claim C10 -/

/-- Claim C10: when two or more records already match (task, week), the
upsert updates only the first query hit and returns `"updated"`; no
record is deleted, every other record is untouched, and the number of
matching records is unchanged — the duplicate violation is preserved,
never repaired. -/
theorem C10_duplicate_preserved (tid wid : ℕ) (tname wlabel : String) (h : ℚ)
    (s : List Alloc) (hdup : 2 ≤ s.countP (matchB tid wid)) :
    (upsert_allocation tid tname wid wlabel h s).2 = "updated" ∧
    (upsert_allocation tid tname wid wlabel h s).1.length = s.length ∧
    (upsert_allocation tid tname wid wlabel h s).1.countP (matchB tid wid)
      = s.countP (matchB tid wid) ∧
    2 ≤ (upsert_allocation tid tname wid wlabel h s).1.countP (matchB tid wid) ∧
    ∃ i, findFirst (matchB tid wid) s = some i ∧
      (upsert_allocation tid tname wid wlabel h s).1
        = s.set i (setH (s.getD i default) (round2 h)) ∧
      ∀ j, j ≠ i →
        (upsert_allocation tid tname wid wlabel h s).1.getD j default
          = s.getD j default := by
  have hany : s.any (matchB tid wid) = true := by
    have hpos : 0 < s.countP (matchB tid wid) := by omega
    rw [List.countP_pos_iff] at hpos
    exact List.any_eq_true.mpr hpos
  obtain ⟨i, hi⟩ := findFirst_isSome_of_any hany
  unfold upsert_allocation
  rw [hi]
  have hcnt : (s.set i (setH (s.getD i default) (round2 h))).countP (matchB tid wid)
      = s.countP (matchB tid wid) :=
    countP_eq_of_map_skel (map_skel_set s i (round2 h)) tid wid
  exact ⟨rfl, by simp, hcnt, hcnt ▸ hdup, i, rfl, rfl, fun j hj => getD_set_ne hj _ _⟩

/-- Witness for `C10_duplicate_preserved`: a store with two duplicate
records for task 1 × week 2. -/
theorem C10_duplicate_preserved_witness :
    2 ≤ ([⟨"A · L", [1], [2], some 5⟩, ⟨"A · L", [1], [2], some 6⟩] : List Alloc).countP
        (matchB 1 2) ∧
    (upsert_allocation 1 "A" 2 "L" 7
        [⟨"A · L", [1], [2], some 5⟩, ⟨"A · L", [1], [2], some 6⟩]).2 = "updated" :=
  ⟨by decide,
    (C10_duplicate_preserved 1 2 "A" "L" 7
      [⟨"A · L", [1], [2], some 5⟩, ⟨"A · L", [1], [2], some 6⟩] (by decide)).1⟩

/-! ## Claim C8 -/

lemma buckets_nonpos_snd {s e : ℕ} {est : ℚ} (hnp : est ≤ 0) :
    ∀ p ∈ buckets s e est, p.2 = 0 := by
  intro p hp
  have hnlt : ¬ 0 < est := not_lt.mpr hnp
  simp only [buckets, if_neg hnlt, decide_eq_false hnlt] at hp
  exact assignHours_false_snd _ _ _ _ _ p hp

lemma upsert_flag (tid : ℕ) (tname : String) (wid : ℕ) (wlabel : String) (h : ℚ)
    (s : List Alloc) :
    (upsert_allocation tid tname wid wlabel h s).2 = "updated" ∨
    (upsert_allocation tid tname wid wlabel h s).2 = "created" := by
  unfold upsert_allocation
  cases findFirst (matchB tid wid) s with
  | none => exact Or.inr rfl
  | some i => exact Or.inl rfl

lemma processBuckets_count (lIdx dIdx : List (String × ℕ)) (tid : ℕ) (tname : String) :
    ∀ (bs : List (ℕ × ℚ)) (store : List Alloc),
      (processBuckets lIdx dIdx tid tname bs store).2.1
        + (processBuckets lIdx dIdx tid tname bs store).2.2
        = bs.countP (fun p =>
            (resolveWeek lIdx dIdx (iso_week_label p.1) (isoDateStr (dayOf p.1))).isSome) := by
  intro bs
  induction bs with
  | nil => intro store; simp [processBuckets]
  | cons p rest ih =>
    intro store
    obtain ⟨w, h⟩ := p
    rw [List.countP_cons]
    cases hres : resolveWeek lIdx dIdx (iso_week_label w) (isoDateStr (dayOf w)) with
    | none =>
      simp only [processBuckets, hres]
      rw [ih store]
      simp [hres]
    | some wid =>
      simp only [processBuckets, hres]
      have hrec := ih (upsert_allocation tid tname wid (iso_week_label w) h store).1
      rcases upsert_flag tid tname wid (iso_week_label w) h store with hf | hf
      · rw [hf]
        have e1 : (if ("updated" : String) = "created" then (1 : ℕ) else 0) = 0 := by decide
        have e2 : (if ("updated" : String) = "updated" then (1 : ℕ) else 0) = 1 := by decide
        rw [e1, e2]
        simp only [hres, Option.isSome_some, if_true]
        omega
      · rw [hf]
        have e1 : (if ("created" : String) = "created" then (1 : ℕ) else 0) = 1 := by decide
        have e2 : (if ("created" : String) = "updated" then (1 : ℕ) else 0) = 0 := by decide
        rw [e1, e2]
        simp only [hres, Option.isSome_some, if_true]
        omega

/-- Claim C8: a task with `estimated_hours ≤ 0` emits `0.0` hours for
every bucket in its span, and the reconciler is still invoked once per
resolvable bucket (created + updated calls = number of buckets whose
week id resolves), so zero-hour allocations are still written. -/
theorem C8_zero_estimate (lIdx dIdx : List (String × ℕ)) (tid : ℕ) (tname : String)
    (s e : ℕ) (est : ℚ) (store : List Alloc) (hnp : est ≤ 0) :
    (∀ p ∈ buckets s e est, p.2 = 0) ∧
    (processBuckets lIdx dIdx tid tname (buckets s e est) store).2.1
      + (processBuckets lIdx dIdx tid tname (buckets s e est) store).2.2
      = (buckets s e est).countP (fun p =>
          (resolveWeek lIdx dIdx (iso_week_label p.1) (isoDateStr (dayOf p.1))).isSome) :=
  ⟨buckets_nonpos_snd hnp, processBuckets_count lIdx dIdx tid tname (buckets s e est) store⟩

/-- Witness for `C8_zero_estimate`: estimate 0 on the single-Monday span
2026-01-05 .. 2026-01-05 with the label `2026-[W]02` present in the
label index. -/
theorem C8_zero_estimate_witness :
    (0 : ℚ) ≤ 0 ∧
    (∀ p ∈ buckets (dayMin * toordinal 2026 1 5) (dayMin * toordinal 2026 1 5) 0,
      p.2 = 0) :=
  ⟨le_refl 0,
    (C8_zero_estimate [("2026-[W]02", 7)] [] 1 "Task"
      (dayMin * toordinal 2026 1 5) (dayMin * toordinal 2026 1 5) 0 [] (le_refl 0)).1⟩

/-! ## The reconciliation run (claim C4) -/

/-- One reconciler invocation's arguments: the resolved
(task, week) pair with its display strings and the bucket's hours. -/
structure Bucket where
  taskId : ℕ
  taskName : String
  weekId : ℕ
  weekLabel : String
  hours : ℚ

/-- `upsert_allocation` on a `Bucket`. -/
def upsertB (b : Bucket) (s : List Alloc) : List Alloc × String :=
  upsert_allocation b.taskId b.taskName b.weekId b.weekLabel b.hours s

/-- The reconciliation sequence: one upsert per resolved bucket,
accumulating the created/updated counters. -/
def runRecon : List Bucket → List Alloc → List Alloc × ℕ × ℕ
  | [], store => (store, 0, 0)
  | b :: bs, store =>
    let r := upsertB b store
    let next := runRecon bs r.1
    (next.1, (if r.2 = "created" then 1 else 0) + next.2.1,
      (if r.2 = "updated" then 1 else 0) + next.2.2)

/-- The store after a reconciliation sequence. -/
def runStore (bs : List Bucket) (s : List Alloc) : List Alloc := (runRecon bs s).1

/-- A parsed task: id, display name, start/due datetimes, estimate. -/
structure TaskRec where
  id : ℕ
  name : String
  start : ℕ
  due : ℕ
  est : ℚ

/-- The resolved buckets of one task: week ids looked up per bucket,
unresolvable buckets dropped (the `continue`). -/
def resolvedBuckets (lIdx dIdx : List (String × ℕ)) (tid : ℕ) (tname : String)
    (bs : List (ℕ × ℚ)) : List Bucket :=
  bs.filterMap (fun p =>
    (resolveWeek lIdx dIdx (iso_week_label p.1) (isoDateStr (dayOf p.1))).map
      (fun wid => ⟨tid, tname, wid, iso_week_label p.1, p.2⟩))

/-- The full per-task loop of `run` over a list of parsed tasks, with
global created/updated counters. -/
def runTasks (lIdx dIdx : List (String × ℕ)) : List TaskRec → List Alloc → List Alloc × ℕ × ℕ
  | [], store => (store, 0, 0)
  | t :: ts, store =>
    let r := processBuckets lIdx dIdx t.id t.name (buckets t.start t.due t.est) store
    let next := runTasks lIdx dIdx ts r.1
    (next.1, r.2.1 + next.2.1, r.2.2 + next.2.2)

/-- The reconciliation sequence of a whole run. -/
def flatBuckets (lIdx dIdx : List (String × ℕ)) : List TaskRec → List Bucket
  | [] => []
  | t :: ts =>
    resolvedBuckets lIdx dIdx t.id t.name (buckets t.start t.due t.est)
      ++ flatBuckets lIdx dIdx ts

lemma processBuckets_eq_runRecon (lIdx dIdx : List (String × ℕ)) (tid : ℕ)
    (tname : String) :
    ∀ (bs : List (ℕ × ℚ)) (store : List Alloc),
      processBuckets lIdx dIdx tid tname bs store
        = runRecon (resolvedBuckets lIdx dIdx tid tname bs) store := by
  intro bs
  induction bs with
  | nil => intro store; rfl
  | cons p rest ih =>
    intro store
    obtain ⟨w, h⟩ := p
    cases hres : resolveWeek lIdx dIdx (iso_week_label w) (isoDateStr (dayOf w)) with
    | none =>
      simp only [processBuckets, hres, resolvedBuckets, List.filterMap_cons, hres,
        Option.map_none']
      exact ih store
    | some wid =>
      have hcons : resolvedBuckets lIdx dIdx tid tname ((w, h) :: rest)
          = ⟨tid, tname, wid, iso_week_label w, h⟩
              :: resolvedBuckets lIdx dIdx tid tname rest := by
        simp only [resolvedBuckets, List.filterMap_cons, hres, Option.map_some']
      rw [hcons, runRecon]
      simp only [processBuckets, hres]
      dsimp only [upsertB]
      rw [ih]

lemma runRecon_append :
    ∀ (l1 l2 : List Bucket) (s : List Alloc),
      runRecon (l1 ++ l2) s
        = ((runRecon l2 (runRecon l1 s).1).1,
           (runRecon l1 s).2.1 + (runRecon l2 (runRecon l1 s).1).2.1,
           (runRecon l1 s).2.2 + (runRecon l2 (runRecon l1 s).1).2.2) := by
  intro l1
  induction l1 with
  | nil => intro l2 s; simp [runRecon]
  | cons b l1 ih =>
    intro l2 s
    dsimp only [List.cons_append, runRecon]
    rw [ih l2 (upsertB b s).1]
    refine Prod.ext rfl (Prod.ext ?_ ?_) <;> dsimp only <;> omega

lemma runTasks_eq_runRecon (lIdx dIdx : List (String × ℕ)) :
    ∀ (ts : List TaskRec) (store : List Alloc),
      runTasks lIdx dIdx ts store = runRecon (flatBuckets lIdx dIdx ts) store := by
  intro ts
  induction ts with
  | nil => intro store; rfl
  | cons t ts ih =>
    intro store
    simp only [runTasks, flatBuckets, runRecon_append, ← ih,
      processBuckets_eq_runRecon]

/-! ## Coverage: a matching record exists for a bucket -/

/-- The bucket's query has at least one hit in the store. -/
def coveredB (b : Bucket) (s : List Alloc) : Bool :=
  s.any (matchB b.taskId b.weekId)

/-- Every bucket of the sequence has a matching record. -/
def allCoveredB (bs : List Bucket) (s : List Alloc) : Prop :=
  ∀ b ∈ bs, coveredB b s = true

lemma any_matchB_eq_of_map_skel {s t : List Alloc} (h : s.map skel = t.map skel)
    (tid wid : ℕ) : s.any (matchB tid wid) = t.any (matchB tid wid) := by
  induction s generalizing t with
  | nil => cases t <;> simp_all
  | cons a s ih =>
    cases t with
    | nil => simp at h
    | cons b t =>
      simp only [List.map_cons, List.cons.injEq] at h
      simp only [List.any_cons, ih h.2, matchB_eq_of_skel h.1 tid wid]

lemma findFirst_matchB_eq_of_map_skel {s t : List Alloc} (h : s.map skel = t.map skel)
    (tid wid : ℕ) : findFirst (matchB tid wid) s = findFirst (matchB tid wid) t := by
  induction s generalizing t with
  | nil => cases t <;> simp_all
  | cons a s ih =>
    cases t with
    | nil => simp at h
    | cons b t =>
      simp only [List.map_cons, List.cons.injEq] at h
      simp only [findFirst, ih h.2, matchB_eq_of_skel h.1 tid wid]

lemma findFirst_append_left {p : Alloc → Bool} :
    ∀ {l : List Alloc} (l' : List Alloc) {i : ℕ},
      findFirst p l = some i → findFirst p (l ++ l') = some i := by
  intro l
  induction l with
  | nil => intro l' i h; simp [findFirst] at h
  | cons a l ih =>
    intro l' i h
    by_cases hp : p a
    · simpa [findFirst, hp] using h
    · simp only [findFirst, if_neg hp, Option.map_eq_some'] at h
      obtain ⟨j, hj, rfl⟩ := h
      show findFirst p (a :: (l ++ l')) = some (j + 1)
      rw [findFirst, if_neg hp, ih l' hj]
      rfl

lemma findFirst_append_right_single {p : Alloc → Bool} :
    ∀ {l : List Alloc} {a : Alloc},
      findFirst p l = none → p a = true → findFirst p (l ++ [a]) = some l.length := by
  intro l
  induction l with
  | nil => intro a _ hp; simp [findFirst, hp]
  | cons b l ih =>
    intro a h hp
    by_cases hb : p b
    · simp [findFirst, hb] at h
    · simp only [findFirst, if_neg hb, Option.map_eq_none'] at h
      show findFirst p (b :: (l ++ [a])) = some (l.length + 1)
      rw [findFirst, if_neg hb, ih h hp]
      rfl

lemma matchB_mkAlloc (tid : ℕ) (tname : String) (wid : ℕ) (wlabel : String) (h : ℚ) :
    matchB tid wid (mkAlloc tid tname wid wlabel h) = true := by
  simp [matchB, mkAlloc]

/-! ## Writes: hours-only updates at fixed positions -/

/-- Index of the record `upsert_allocation` would update for bucket `b`
(meaningful when `coveredB b s`). -/
def tgt (s : List Alloc) (b : Bucket) : ℕ :=
  (findFirst (matchB b.taskId b.weekId) s).getD 0

/-- Overwrite the planned hours of the record at position `i`. -/
def writeAt (i : ℕ) (v : ℚ) (s : List Alloc) : List Alloc :=
  s.set i (setH (s.getD i default) v)

/-- Apply a sequence of positional hour writes in order. -/
def applyWrites : List (ℕ × ℚ) → List Alloc → List Alloc
  | [], s => s
  | w :: ws, s => applyWrites ws (writeAt w.1 w.2 s)

/-- The write sequence an all-update pass performs, with targets
computed against the store `s`. -/
def writesOf (s : List Alloc) (bs : List Bucket) : List (ℕ × ℚ) :=
  bs.map (fun b => (tgt s b, round2 b.hours))

/-- The value of the last write to coordinate `k`, if any. -/
def lastVal : List (ℕ × ℚ) → ℕ → Option ℚ
  | [], _ => none
  | w :: ws, k =>
    match lastVal ws k with
    | some y => some y
    | none => if w.1 = k then some w.2 else none

lemma upsertB_store_of_covered {b : Bucket} {s : List Alloc}
    (h : coveredB b s = true) :
    (upsertB b s).1 = writeAt (tgt s b) (round2 b.hours) s := by
  obtain ⟨i, hi⟩ := findFirst_isSome_of_any h
  simp only [upsertB, upsert_allocation, hi, tgt, writeAt, Option.getD_some]

lemma upsertB_store_of_not_covered {b : Bucket} {s : List Alloc}
    (h : coveredB b s = false) :
    (upsertB b s).1
      = s ++ [mkAlloc b.taskId b.taskName b.weekId b.weekLabel b.hours] := by
  simp only [upsertB, upsert_allocation, (findFirst_eq_none_iff _ s).mpr h]

lemma upsertB_flag_of_covered {b : Bucket} {s : List Alloc}
    (h : coveredB b s = true) : (upsertB b s).2 = "updated" := by
  obtain ⟨i, hi⟩ := findFirst_isSome_of_any h
  simp only [upsertB, upsert_allocation, hi]

lemma length_writeAt (i : ℕ) (v : ℚ) (s : List Alloc) :
    (writeAt i v s).length = s.length := by
  simp [writeAt]

lemma map_skel_writeAt (i : ℕ) (v : ℚ) (s : List Alloc) :
    (writeAt i v s).map skel = s.map skel :=
  map_skel_set s i v

lemma coveredB_upsertB_self (b : Bucket) (s : List Alloc) :
    coveredB b ((upsertB b s).1) = true := by
  by_cases h : coveredB b s = true
  · rw [upsertB_store_of_covered h]
    unfold coveredB at *
    rw [any_matchB_eq_of_map_skel (map_skel_writeAt _ _ _)]
    exact h
  · rw [upsertB_store_of_not_covered (by simpa using h)]
    unfold coveredB
    simp [List.any_append, matchB_mkAlloc]

lemma coveredB_upsertB_mono {b' : Bucket} (b : Bucket) {s : List Alloc}
    (h : coveredB b' s = true) : coveredB b' ((upsertB b s).1) = true := by
  by_cases hb : coveredB b s = true
  · rw [upsertB_store_of_covered hb]
    unfold coveredB at *
    rw [any_matchB_eq_of_map_skel (map_skel_writeAt _ _ _)]
    exact h
  · rw [upsertB_store_of_not_covered (by simpa using hb)]
    unfold coveredB at *
    simp [List.any_append, h]

lemma runStore_cons (b : Bucket) (bs : List Bucket) (s : List Alloc) :
    runStore (b :: bs) s = runStore bs (upsertB b s).1 := rfl

lemma runStore_append (l1 l2 : List Bucket) (s : List Alloc) :
    runStore (l1 ++ l2) s = runStore l2 (runStore l1 s) := by
  unfold runStore
  rw [runRecon_append]

lemma allCoveredB_run (bs : List Bucket) (s : List Alloc) :
    allCoveredB bs (runStore bs s) := by
  induction bs using List.reverseRecOn generalizing s with
  | nil => intro b hb; cases hb
  | append_singleton l b ih =>
    intro b' hb'
    rw [runStore_append]
    have hone : runStore [b] (runStore l s) = (upsertB b (runStore l s)).1 := rfl
    rw [hone]
    rcases List.mem_append.mp hb' with hmem | hmem
    · exact coveredB_upsertB_mono b (ih s b' hmem)
    · rw [List.mem_singleton.mp hmem]
      exact coveredB_upsertB_self b _

lemma runRecon_created_zero :
    ∀ (bs : List Bucket) (s : List Alloc), allCoveredB bs s →
      (runRecon bs s).2.1 = 0 := by
  intro bs
  induction bs with
  | nil => intro s _; rfl
  | cons b bs ih =>
    intro s hcov
    have hb : coveredB b s = true := hcov b (List.mem_cons_self b bs)
    have hflag : (upsertB b s).2 = "updated" := upsertB_flag_of_covered hb
    have htail : allCoveredB bs (upsertB b s).1 :=
      fun b' hb' => coveredB_upsertB_mono b (hcov b' (List.mem_cons_of_mem b hb'))
    dsimp only [runRecon]
    rw [hflag, ih (upsertB b s).1 htail]
    decide

lemma tgt_lt_of_covered {b : Bucket} {s : List Alloc} (h : coveredB b s = true) :
    tgt s b < s.length := by
  obtain ⟨i, hi⟩ := findFirst_isSome_of_any h
  unfold tgt
  rw [hi]
  simpa using findFirst_some_lt hi

lemma tgt_eq_of_map_skel {s t : List Alloc} (h : s.map skel = t.map skel)
    (b : Bucket) : tgt s b = tgt t b := by
  unfold tgt
  rw [findFirst_matchB_eq_of_map_skel h]

lemma runStore_eq_applyWrites :
    ∀ (bs : List Bucket) (s t : List Alloc), allCoveredB bs s →
      s.map skel = t.map skel →
      runStore bs t = applyWrites (writesOf s bs) t := by
  intro bs
  induction bs with
  | nil => intro s t _ _; rfl
  | cons b bs ih =>
    intro s t hcov hsk
    have hcb : coveredB b t = true := by
      unfold coveredB
      rw [← any_matchB_eq_of_map_skel hsk]
      exact hcov b (List.mem_cons_self b bs)
    rw [runStore_cons, upsertB_store_of_covered hcb]
    have hws : writesOf s (b :: bs)
        = (tgt s b, round2 b.hours) :: writesOf s bs := rfl
    rw [hws]
    have htgt : tgt s b = tgt t b := tgt_eq_of_map_skel hsk b
    rw [applyWrites, ← htgt]
    exact ih s (writeAt (tgt s b) (round2 b.hours) t)
      (fun b' hb' => hcov b' (List.mem_cons_of_mem b hb'))
      (by rw [hsk, map_skel_writeAt])

lemma lastVal_append_single :
    ∀ (ws : List (ℕ × ℚ)) (p : ℕ × ℚ) (k : ℕ),
      lastVal (ws ++ [p]) k = if p.1 = k then some p.2 else lastVal ws k := by
  intro ws
  induction ws with
  | nil =>
    intro p k
    simp [lastVal]
  | cons w ws ih =>
    intro p k
    rw [List.cons_append, lastVal, ih p k]
    by_cases hp : p.1 = k
    · rw [if_pos hp, if_pos hp]
    · rw [if_neg hp, if_neg hp]
      rfl

lemma lastVal_none_of_targets_lt :
    ∀ (ws : List (ℕ × ℚ)) (k : ℕ), (∀ w ∈ ws, w.1 < k) → lastVal ws k = none := by
  intro ws
  induction ws with
  | nil => intro k _; rfl
  | cons w ws ih =>
    intro k hb
    have hne : w.1 ≠ k := Nat.ne_of_lt (hb w (List.mem_cons_self w ws))
    simp only [lastVal, ih k (fun w' hw' => hb w' (List.mem_cons_of_mem w hw')),
      if_neg hne]

lemma getD_writeAt_self {s : List Alloc} {i : ℕ} (h : i < s.length) (v : ℚ) :
    (writeAt i v s).getD i default = setH (s.getD i default) v :=
  getD_set_self h _ _

lemma getD_writeAt_ne {s : List Alloc} {i k : ℕ} (h : k ≠ i) (v : ℚ) :
    (writeAt i v s).getD k default = s.getD k default :=
  getD_set_ne h _ _

lemma applyWrites_length :
    ∀ (ws : List (ℕ × ℚ)) (s : List Alloc), (applyWrites ws s).length = s.length := by
  intro ws
  induction ws with
  | nil => intro s; rfl
  | cons w ws ih => intro s; rw [applyWrites, ih, length_writeAt]

lemma setH_setH (a : Alloc) (x y : ℚ) : setH (setH a x) y = setH a y := rfl

lemma applyWrites_getD :
    ∀ (ws : List (ℕ × ℚ)) (s : List Alloc) (k : ℕ), (∀ w ∈ ws, w.1 < s.length) →
      (applyWrites ws s).getD k default
        = (match lastVal ws k with
           | some v => setH (s.getD k default) v
           | none => s.getD k default) := by
  intro ws
  induction ws with
  | nil => intro s k _; rfl
  | cons w ws ih =>
    intro s k hb
    have hw1 : w.1 < s.length := hb w (List.mem_cons_self w ws)
    rw [applyWrites, ih (writeAt w.1 w.2 s) k
      (fun w' hw' => by rw [length_writeAt]; exact hb w' (List.mem_cons_of_mem w hw'))]
    cases hl : lastVal ws k with
    | some y =>
      have hcons : lastVal (w :: ws) k = some y := by simp [lastVal, hl]
      rw [hcons]
      by_cases hk : k = w.1
      · subst hk
        rw [getD_writeAt_self hw1]
        rfl
      · rw [getD_writeAt_ne hk]
    | none =>
      have hcons : lastVal (w :: ws) k = if w.1 = k then some w.2 else none := by
        simp [lastVal, hl]
      rw [hcons]
      by_cases hk : w.1 = k
      · rw [if_pos hk, ← hk, getD_writeAt_self hw1]
      · rw [if_neg hk, getD_writeAt_ne (fun hh => hk hh.symm)]

lemma list_ext_getD :
    ∀ (s t : List Alloc), s.length = t.length →
      (∀ k, s.getD k default = t.getD k default) → s = t := by
  intro s
  induction s with
  | nil =>
    intro t h _
    cases t with
    | nil => rfl
    | cons b t => simp at h
  | cons a s ih =>
    intro t hlen hk
    cases t with
    | nil => simp at hlen
    | cons b t =>
      have h0 : a = b := hk 0
      have htail : s = t :=
        ih t (by simpa using hlen) (fun k => hk (k + 1))
      rw [h0, htail]

lemma setH_eq_self {a : Alloc} {v : ℚ} (h : a.hours = some v) : setH a v = a := by
  cases a
  simp only [setH]
  simp_all

/-! ## The run's final store is a fixpoint of its own write sequence -/

lemma run_writes_char :
    ∀ (bs : List Bucket), ∀ (s0 : List Alloc) (k : ℕ) (v : ℚ),
      lastVal (writesOf (runStore bs s0) bs) k = some v →
      ((runStore bs s0).getD k default).hours = some v := by
  intro bs
  induction bs using List.reverseRecOn with
  | nil => intro s0 k v h; simp [writesOf, lastVal] at h
  | append_singleton bs b ih =>
    intro s0 k v h
    have hsplit : runStore (bs ++ [b]) s0 = (upsertB b (runStore bs s0)).1 := by
      rw [runStore_append]
      rfl
    have hcov : allCoveredB bs (runStore bs s0) := allCoveredB_run bs s0
    by_cases hb : coveredB b (runStore bs s0) = true
    · -- update case
      obtain ⟨i, hi⟩ := findFirst_isSome_of_any hb
      have hupd : runStore (bs ++ [b]) s0
          = writeAt (tgt (runStore bs s0) b) (round2 b.hours) (runStore bs s0) := by
        rw [hsplit, upsertB_store_of_covered hb]
      have hsk : (runStore (bs ++ [b]) s0).map skel = (runStore bs s0).map skel := by
        rw [hupd, map_skel_writeAt]
      have hws : writesOf (runStore (bs ++ [b]) s0) (bs ++ [b])
          = writesOf (runStore bs s0) bs
              ++ [(tgt (runStore bs s0) b, round2 b.hours)] := by
        unfold writesOf
        rw [List.map_append]
        congr 1
        · exact List.map_congr_left (fun b' _ => by rw [tgt_eq_of_map_skel hsk b'])
        · simp [tgt_eq_of_map_skel hsk b]
      rw [hws, lastVal_append_single] at h
      by_cases hk : tgt (runStore bs s0) b = k
      · rw [if_pos hk] at h
        injection h with hv
        rw [hupd, ← hk,
          getD_writeAt_self (tgt_lt_of_covered hb)]
        show some (round2 b.hours) = some v
        rw [← hv]
      · rw [if_neg hk] at h
        rw [hupd, getD_writeAt_ne (fun hh => hk hh.symm)]
        exact ih s0 k v h
    · -- create case
      have hbf : coveredB b (runStore bs s0) = false := by simpa using hb
      have hcre : runStore (bs ++ [b]) s0
          = runStore bs s0
              ++ [mkAlloc b.taskId b.taskName b.weekId b.weekLabel b.hours] := by
        rw [hsplit, upsertB_store_of_not_covered hbf]
      have hffnone : findFirst (matchB b.taskId b.weekId) (runStore bs s0) = none :=
        (findFirst_eq_none_iff _ _).mpr hbf
      have hffq : findFirst (matchB b.taskId b.weekId)
          (runStore bs s0
            ++ [mkAlloc b.taskId b.taskName b.weekId b.weekLabel b.hours])
          = some (runStore bs s0).length :=
        findFirst_append_right_single hffnone (matchB_mkAlloc _ _ _ _ _)
      have htgq : tgt (runStore (bs ++ [b]) s0) b = (runStore bs s0).length := by
        unfold tgt
        rw [hcre, hffq]
        rfl
      have htg' : ∀ b' ∈ bs,
          tgt (runStore (bs ++ [b]) s0) b' = tgt (runStore bs s0) b' := by
        intro b' hb'
        obtain ⟨i, hi⟩ := findFirst_isSome_of_any (hcov b' hb')
        unfold tgt
        rw [hcre, findFirst_append_left _ hi, hi]
      have hws : writesOf (runStore (bs ++ [b]) s0) (bs ++ [b])
          = writesOf (runStore bs s0) bs
              ++ [((runStore bs s0).length, round2 b.hours)] := by
        unfold writesOf
        rw [List.map_append]
        congr 1
        · exact List.map_congr_left (fun b' hb' => by rw [htg' b' hb'])
        · simp [htgq]
      have hbound : ∀ w ∈ writesOf (runStore bs s0) bs,
          w.1 < (runStore bs s0).length := by
        intro w hw
        obtain ⟨b', hb', rfl⟩ := List.mem_map.mp hw
        exact tgt_lt_of_covered (hcov b' hb')
      rw [hws, lastVal_append_single] at h
      by_cases hk : (runStore bs s0).length = k
      · rw [if_pos hk] at h
        injection h with hv
        rw [hcre, ← hk, getD_append_self]
        show some (round2 b.hours) = some v
        rw [← hv]
      · rw [if_neg hk] at h
        rcases Nat.lt_or_ge k (runStore bs s0).length with hlt | hge
        · rw [hcre, getD_append_left _ hlt]
          exact ih s0 k v h
        · rw [lastVal_none_of_targets_lt _ k
            (fun w hw => Nat.lt_of_lt_of_le (hbound w hw) hge)] at h
          cases h

lemma applyWrites_fix (bs : List Bucket) (s0 : List Alloc) :
    applyWrites (writesOf (runStore bs s0) bs) (runStore bs s0) = runStore bs s0 := by
  have hcov : allCoveredB bs (runStore bs s0) := allCoveredB_run bs s0
  have hbound : ∀ w ∈ writesOf (runStore bs s0) bs, w.1 < (runStore bs s0).length := by
    intro w hw
    obtain ⟨b', hb', rfl⟩ := List.mem_map.mp hw
    exact tgt_lt_of_covered (hcov b' hb')
  apply list_ext_getD
  · exact applyWrites_length _ _
  · intro k
    rw [applyWrites_getD _ _ k hbound]
    cases hl : lastVal (writesOf (runStore bs s0) bs) k with
    | none => rfl
    | some v => exact setH_eq_self (run_writes_char bs s0 k v hl)

/-! ## Claim C4 -/

/-- Claim C4: for every store state, running the full reconciliation
twice over the same week indexes and tasks yields a second run whose
created count is 0 and whose final store is identical to the first run's
final store — the upsert queries before writing and updates in place. -/
theorem C4_reconciliation_idempotent (lIdx dIdx : List (String × ℕ))
    (ts : List TaskRec) (store : List Alloc) :
    (runTasks lIdx dIdx ts (runTasks lIdx dIdx ts store).1).2.1 = 0 ∧
    (runTasks lIdx dIdx ts (runTasks lIdx dIdx ts store).1).1
      = (runTasks lIdx dIdx ts store).1 := by
  simp only [runTasks_eq_runRecon]
  constructor
  · exact runRecon_created_zero (flatBuckets lIdx dIdx ts) _
      (allCoveredB_run (flatBuckets lIdx dIdx ts) store)
  · show runStore (flatBuckets lIdx dIdx ts) (runStore (flatBuckets lIdx dIdx ts) store)
      = runStore (flatBuckets lIdx dIdx ts) store
    rw [runStore_eq_applyWrites (flatBuckets lIdx dIdx ts)
      (runStore (flatBuckets lIdx dIdx ts) store)
      (runStore (flatBuckets lIdx dIdx ts) store)
      (allCoveredB_run (flatBuckets lIdx dIdx ts) store) rfl]
    exact applyWrites_fix (flatBuckets lIdx dIdx ts) store

end RunAllocations
